import Mathlib

/-!
Verification of the project-directory resolution, terminal handling and command
logic of the vscode-python-tox extension (files `src/utils.ts` and
`src/extension.ts`).

Strings are modelled as `List Char`.  The Node `path.posix` functions used by
the source (`dirname`, `isAbsolute`, `join`, `normalize`) are embedded
faithfully from their Node.js semantics, and the JavaScript string operations
(`String.prototype.replace` with a string pattern, `split`, `trim`) from the
ECMAScript semantics.  Editor state (active document, workspace folders,
configuration, terminal registry) is an explicit record, and the asynchronous
command handlers are embedded as pure functions of that state plus oracles for
the subprocess output and the user's quick-pick selections.
-/

/-- A JavaScript string, modelled as its list of characters. -/
abbrev Str := List Char

namespace JsStr

/-- JavaScript `String.prototype.replace` with a plain string pattern: only the
first occurrence of `pat` is replaced by `repl`; if `pat` does not occur the
string is returned unchanged.  (Dollar substitution patterns in `repl` are not
modelled; the replacement values in this code base are filesystem paths.) -/
def replaceFirst (s pat repl : Str) : Str :=
  match s with
  | [] => if pat = [] then repl else []
  | c :: rest =>
    if pat.isPrefixOf (c :: rest) then repl ++ (c :: rest).drop pat.length
    else c :: replaceFirst rest pat repl

/-- JavaScript `String.prototype.includes`: whether `pat` occurs in `s`. -/
def containsSub (s pat : Str) : Bool :=
  match s with
  | [] => pat.isEmpty
  | _ :: rest => pat.isPrefixOf s || containsSub rest pat

/-- Worker for `splitOnJs`.  The `skip` counter consumes the remaining
characters of a separator occurrence whose first character was already
consumed, keeping the recursion structural. -/
def goSplit (sp : Str) : Str → Nat → Str → List Str
  | [], _, acc => [acc.reverse]
  | _ :: rest, Nat.succ n, acc => goSplit sp rest n acc
  | c :: rest, 0, acc =>
    if sp.isPrefixOf (c :: rest) then acc.reverse :: goSplit sp rest (sp.length - 1) []
    else goSplit sp rest 0 (c :: acc)

/-- JavaScript `String.prototype.split` with a string separator and no limit:
splits at every non-overlapping occurrence of `sp`, scanning left to right.
An empty separator splits into single characters. -/
def splitOnJs (sp s : Str) : List Str :=
  if sp = [] then s.map (fun c => [c]) else goSplit sp s 0 []

/-- The characters treated as whitespace by JavaScript `String.prototype.trim`
(ASCII whitespace plus the common Unicode space characters). -/
def isJsSpace (c : Char) : Bool :=
  c == ' ' || c == '\t' || c == '\n' || c == '\r' || c == '\x0b' || c == '\x0c' ||
    c == '\u00A0' || c == '\uFEFF' || c == '\u2028' || c == '\u2029'

/-- JavaScript `String.prototype.trim`: removes whitespace from both ends. -/
def trimJs (s : Str) : Str :=
  ((s.dropWhile isJsSpace).reverse.dropWhile isJsSpace).reverse

/-- Removal of trailing whitespace only (used to state what the specification
text literally describes, for comparison with the code's two-sided trim). -/
def trimTrailing (s : Str) : Str :=
  (s.reverse.dropWhile isJsSpace).reverse

end JsStr

namespace Path

/-- The posix path separator. -/
def sep : Char := '/'

/-- Node `path.posix.isAbsolute`: nonempty and starting with a slash. -/
def isAbsolute (p : Str) : Bool :=
  match p with
  | c :: _ => c == sep
  | [] => false

/-- The parent-directory segment `..`. -/
def up : Str := ['.', '.']

/-- One step of segment resolution, as in the segment loop of Node's
`normalizeString`: empty segments and `.` are dropped, `..` pops the previous
segment when one is available (otherwise it is kept only when `allowUp` is set,
which Node does for relative paths), and any other segment is kept. -/
def step (allowUp : Bool) (stack : List Str) (seg : Str) : List Str :=
  if seg = [] ∨ seg = ['.'] then stack
  else if seg = up then
    match stack with
    | [] => if allowUp then [seg] else []
    | top :: rest => if top = up then (if allowUp then seg :: stack else stack) else rest
  else seg :: stack

/-- Resolution of a list of raw segments, keeping the surviving segments in
order. -/
def cleanSegs (allowUp : Bool) (segs : List Str) : List Str :=
  (segs.foldl (step allowUp) []).reverse

/-- Node `normalizeString`: splits on the separator, resolves `.` and `..`
segments and drops empty segments, and rejoins with the separator. -/
def normalizeString (allowUp : Bool) (p : Str) : Str :=
  [sep].intercalate (cleanSegs allowUp (p.splitOn sep))

/-- Node `path.posix.normalize`. -/
def normalize (p : Str) : Str :=
  if p = [] then ['.']
  else
    let isAbs := isAbsolute p
    let trailing := p.getLast? = some sep
    let n := normalizeString (!isAbs) p
    let n := if n = [] ∧ isAbs = false then ['.'] else n
    let n := if n ≠ [] ∧ trailing then n ++ [sep] else n
    if isAbs then sep :: n else n

/-- Node `path.posix.join` restricted to two arguments, as used by the source:
the nonempty arguments are joined with a separator and the result is
normalized. -/
def join2 (a b : Str) : Str :=
  let joined := if a = [] then b else if b = [] then a else a ++ sep :: b
  if joined = [] then ['.'] else normalize joined

/-- Node `path.posix.dirname`.  Trailing separators are ignored, the final
segment is removed, and a rooted path keeps its root. -/
def dirname (p : Str) : Str :=
  match p with
  | [] => ['.']
  | c :: t =>
    let hasRoot := c = sep
    let r1 := t.reverse.dropWhile (fun x => x == sep)
    let r2 := r1.dropWhile (fun x => x != sep)
    if r2 = [] then (if hasRoot then [sep] else ['.'])
    else if hasRoot ∧ r2.length = 1 then [sep, sep]
    else (c :: t).take r2.length

/-- A path is normalized when `normalize` leaves it unchanged. -/
def Normalized (p : Str) : Prop := normalize p = p

/-- A segment that segment resolution always keeps: nonempty, not a dot
segment, and free of separators. -/
def GoodSeg (s : Str) : Prop := s ≠ [] ∧ s ≠ ['.'] ∧ s ≠ up ∧ sep ∉ s

end Path

/-- A terminal session of the host editor.  `handleId` stands for the identity
of the live handle object: `createTerminal` always produces a fresh one. -/
structure Terminal where
  name : Str
  cwd : Str
  handleId : Nat
  deriving DecidableEq

/-- The editor state read by the project-directory resolvers: the `fsPath` of
the active document (if any), the workspace folder (root `fsPath`) containing a
given document, and the `tox.cwd` configuration value. -/
structure Host where
  activeDocFsPath : Option Str
  workspaceFolderOf : Str → Option Str
  toxCwd : Option Str

namespace Utils

/-- The message of the error thrown when no editor is active
(`"No active editor found."`), the `NoActiveDocument` failure of the spec. -/
def noActiveEditorMsg : Str := "No active editor found.".data

/-- The template placeholder for the workspace folder root. -/
def wsPlaceholder : Str := "$\x7bworkspaceFolder\x7d".data

/-- The template placeholder for the parent directory of the active document. -/
def fileWsPlaceholder : Str := "$\x7bfileWorkspaceFolder\x7d".data

/-- Lines 22 and 23 of `src/utils.ts`: the first substitution is computed into
`toxRootFolder` and then unconditionally overwritten, because the second
`replace` is applied to the original `configuration.cwd` again. -/
def overriddenRoot (cwd wsRoot docDir : Str) : Str :=
  let toxRootFolder := JsStr.replaceFirst cwd wsPlaceholder wsRoot
  let toxRootFolder := JsStr.replaceFirst cwd fileWsPlaceholder docDir
  toxRootFolder

/-- `findProjectDir` from `src/utils.ts`.  Throwing is modelled with `Except`;
the `if (configuration.cwd)` truthiness test fails for an absent setting and
for the empty string. -/
def findProjectDir (h : Host) : Except Str Str :=
  match h.activeDocFsPath with
  | none => .error noActiveEditorMsg
  | some docPath =>
    match h.workspaceFolderOf docPath with
    | none => .ok (Path.dirname docPath)
    | some wsRoot =>
      let folder := wsRoot
      let folder :=
        match h.toxCwd with
        | none => folder
        | some cwd =>
          if cwd = [] then folder
          else
            let toxRootFolder := overriddenRoot cwd wsRoot (Path.dirname docPath)
            if Path.isAbsolute toxRootFolder = false then Path.join2 wsRoot toxRootFolder
            else toxRootFolder
      .ok (Path.normalize folder)

/-- `getTerminal` from `src/utils.ts`: the first terminal whose name equals the
requested name is reused, otherwise a fresh terminal bound to `projDir` and
`nm` is created.  The terminal registry is passed and returned explicitly. -/
def getTerminal (terminals : List Terminal) (projDir : Str) (nm : Str) :
    Terminal × List Terminal :=
  match terminals.find? (fun t => t.name == nm) with
  | some t => (t, terminals)
  | none =>
    let fresh : Terminal := { name := nm, cwd := projDir, handleId := terminals.length }
    (fresh, terminals ++ [fresh])

end Utils

namespace Extension

/-- The private `findProjectDir` of `src/extension.ts` (used by the commands);
it reads no configuration. -/
def findProjectDir (h : Host) : Except Str Str :=
  match h.activeDocFsPath with
  | none => .error Utils.noActiveEditorMsg
  | some docPath =>
    match h.workspaceFolderOf docPath with
    | some ws => .ok ws
    | none => .ok (Path.dirname docPath)

/-- `getToxEnvs` from `src/extension.ts`: `stdout.trim().split(os.EOL)`, with
the platform line separator passed explicitly. -/
def getToxEnvs (stdout eol : Str) : List Str :=
  JsStr.splitOnJs eol (JsStr.trimJs stdout)

/-- `runTox` from `src/extension.ts`: always creates a fresh terminal named
`"tox"` in `projDir`, joins the environment names with commas and sends
`tox -e <names>`.  Returns the created terminal, the grown registry and the
text sent. -/
def runTox (envs : List Str) (projDir : Str) (terminals : List Terminal) :
    Terminal × List Terminal × Str :=
  let term : Terminal := { name := "tox".data, cwd := projDir, handleId := terminals.length }
  let envArg := [','].intercalate envs
  (term, terminals ++ [term], "tox -e ".data ++ envArg)

/-- The observable outcome of one command invocation. -/
inductive Outcome where
  | thrown (msg : Str)
  | errorShown (msg : Str)
  | silentReturn
  | ran (term : Terminal) (sentText : Str)
  deriving DecidableEq

/-- The collaborators of a command invocation: the editor state, the result of
`exec` of `tox -a` in a given directory, the platform line separator, and the
user's quick-pick answers (`none` models a cancelled prompt, i.e. the
`undefined` result). -/
structure CmdEnv where
  host : Host
  toxA : Str → Except Str Str
  eol : Str
  pickOne : List Str → Option Str
  pickMany : List Str → Option (List Str)

/-- `selectCommand` from `src/extension.ts`.  A subprocess failure is shown as
an error message (in `safeGetToxEnvs`) and the command returns; a falsy
selection (cancelled prompt or empty string) returns silently; otherwise
`runTox` runs the single selected environment. -/
def selectCommand (env : CmdEnv) (ts : List Terminal) : Outcome × List Terminal :=
  match findProjectDir env.host with
  | .error m => (.thrown m, ts)
  | .ok projDir =>
    match env.toxA projDir with
    | .error m => (.errorShown m, ts)
    | .ok stdout =>
      let envs := getToxEnvs stdout env.eol
      match env.pickOne envs with
      | none => (.silentReturn, ts)
      | some sel =>
        if sel = [] then (.silentReturn, ts)
        else
          let r := runTox [sel] projDir ts
          (.ran r.1 r.2.2, r.2.1)

/-- `selectMultipleCommand` from `src/extension.ts`.  Only an `undefined`
selection is falsy in JavaScript: an empty selected array passes the
`if (!selected)` test and `runTox` runs with no environments. -/
def selectMultipleCommand (env : CmdEnv) (ts : List Terminal) : Outcome × List Terminal :=
  match findProjectDir env.host with
  | .error m => (.thrown m, ts)
  | .ok projDir =>
    match env.toxA projDir with
    | .error m => (.errorShown m, ts)
    | .ok stdout =>
      let envs := getToxEnvs stdout env.eol
      match env.pickMany envs with
      | none => (.silentReturn, ts)
      | some sels =>
        let r := runTox sels projDir ts
        (.ran r.1 r.2.2, r.2.1)

/-- The environment-list computation as the specification sentence literally
describes it (trailing whitespace trimmed, split on the line separator, each
element trimmed), for comparison with `getToxEnvs`. -/
def specEnvList (stdout eol : Str) : List Str :=
  (JsStr.splitOnJs eol (JsStr.trimTrailing stdout)).map JsStr.trimJs

end Extension

/-- Decidable equality for resolver results, so that concrete runs can be
checked by `decide`. -/
instance : DecidableEq (Except Str Str) := fun a b =>
  match a, b with
  | .ok x, .ok y =>
    match decEq x y with
    | isTrue h => isTrue (by rw [h])
    | isFalse h => isFalse fun hh => h (Except.ok.inj hh)
  | .ok _, .error _ => isFalse fun hh => Except.noConfusion hh
  | .error _, .ok _ => isFalse fun hh => Except.noConfusion hh
  | .error x, .error y =>
    match decEq x y with
    | isTrue h => isTrue (by rw [h])
    | isFalse h => isFalse fun hh => h (Except.error.inj hh)

/-! ### Concrete editor states used by the closed-form checks -/

/-- A document inside the workspace folder `/ws`. -/
def docA : Str := "/ws/proj/file.py".data

/-- Workspace document, no configuration override. -/
def hostWs : Host :=
  { activeDocFsPath := some docA
    workspaceFolderOf := fun _ => some ("/ws".data)
    toxCwd := none }

/-- A single open file outside any workspace folder. -/
def hostNoWs : Host :=
  { activeDocFsPath := some ("/tmp/note.py".data)
    workspaceFolderOf := fun _ => none
    toxCwd := none }

/-- No focused document. -/
def hostNoDoc : Host :=
  { activeDocFsPath := none
    workspaceFolderOf := fun _ => none
    toxCwd := none }

/-- Workspace document with the override template of claim C2. -/
def hostOverride : Host :=
  { activeDocFsPath := some docA
    workspaceFolderOf := fun _ => some ("/ws".data)
    toxCwd := some ("$\x7bworkspaceFolder\x7d/sub".data) }

/-- Output of `tox -a` used by the command fixtures. -/
def toxOut : Str := "py39\nlint".data

/-- A command environment in which the user picks environments normally. -/
def envRun : Extension.CmdEnv :=
  { host := hostWs
    toxA := fun _ => .ok toxOut
    eol := "\n".data
    pickOne := fun _ => some ("py39".data)
    pickMany := fun _ => some ["py39".data, "lint".data] }

/-- A command environment in which both prompts are cancelled. -/
def envCancel : Extension.CmdEnv :=
  { host := hostWs
    toxA := fun _ => .ok toxOut
    eol := "\n".data
    pickOne := fun _ => none
    pickMany := fun _ => none }

/-- A command environment in which the multi-pick prompt is confirmed with an
empty selection. -/
def envEmptyMulti : Extension.CmdEnv :=
  { host := hostWs
    toxA := fun _ => .ok toxOut
    eol := "\n".data
    pickOne := fun _ => none
    pickMany := fun _ => some [] }

/-- A command environment with no focused document. -/
def envNoDoc : Extension.CmdEnv :=
  { host := hostNoDoc
    toxA := fun _ => .ok toxOut
    eol := "\n".data
    pickOne := fun _ => some ("py39".data)
    pickMany := fun _ => some ["py39".data] }

/-- A pre-existing terminal named `tox`. -/
def toxTerm0 : Terminal := { name := "tox".data, cwd := "/old".data, handleId := 0 }

/-! ### Helper lemmas -/

theorem replaceFirst_of_not_contains (s pat repl : Str)
    (h : JsStr.containsSub s pat = false) : JsStr.replaceFirst s pat repl = s := by
  induction s with
  | nil =>
    simp only [JsStr.containsSub] at h
    simp only [JsStr.replaceFirst]
    rw [if_neg]
    intro hp
    subst hp
    simp at h
  | cons c rest ih =>
    simp only [JsStr.containsSub, Bool.or_eq_false_iff] at h
    simp only [JsStr.replaceFirst, h.1, Bool.false_eq_true, if_false]
    rw [ih h.2]

/-! ### Claim C5 -/

/-- C5: `getTerminal(dir, name)` returns the first existing terminal whose name
exactly equals the requested name (case-sensitive), regardless of that
terminal's working directory and of the requested directory; two calls with the
same name and different directories return the same handle; and a call whose
name matches no existing terminal creates exactly one new terminal bound to the
given directory and name. -/
theorem C5_getOrCreate_name_keyed (ts : List Terminal) (d1 d2 d3 nm : Str) :
    (∀ t, ts.find? (fun x => x.name == nm) = some t →
      ∀ d, Utils.getTerminal ts d nm = (t, ts)) ∧
    (Utils.getTerminal (Utils.getTerminal ts d1 nm).2 d2 nm).1 =
      (Utils.getTerminal ts d1 nm).1 ∧
    (ts.find? (fun x => x.name == nm) = none →
      Utils.getTerminal ts d3 nm =
        ({ name := nm, cwd := d3, handleId := ts.length },
          ts ++ [{ name := nm, cwd := d3, handleId := ts.length }])) := by
  refine ⟨?_, ?_, ?_⟩
  · intro t h d
    simp [Utils.getTerminal, h]
  · cases hfind : ts.find? (fun x => x.name == nm) with
    | some t => simp [Utils.getTerminal, hfind]
    | none =>
      simp only [Utils.getTerminal, hfind]
      rw [List.find?_append, hfind]
      simp
  · intro h
    simp [Utils.getTerminal, h]

/-- C5 witness: on a registry holding a terminal named `tox` with directory
`/old`, a lookup for name `tox` with a different directory returns that
terminal unchanged, twice; on the empty registry a lookup creates exactly the
one new terminal. -/
theorem C5_getOrCreate_name_keyed_witness :
    Utils.getTerminal [toxTerm0] ("/new".data) ("tox".data) = (toxTerm0, [toxTerm0]) ∧
    (Utils.getTerminal (Utils.getTerminal [toxTerm0] ("/new".data) ("tox".data)).2
        ("/other".data) ("tox".data)).1 =
      (Utils.getTerminal [toxTerm0] ("/new".data) ("tox".data)).1 ∧
    Utils.getTerminal [] ("/new".data) ("tox".data) =
      ({ name := "tox".data, cwd := "/new".data, handleId := 0 },
        [{ name := "tox".data, cwd := "/new".data, handleId := 0 }]) :=
  ⟨(C5_getOrCreate_name_keyed [toxTerm0] ("/new".data) ("/other".data) ("/new".data)
      ("tox".data)).1 toxTerm0 (by decide) ("/new".data),
   (C5_getOrCreate_name_keyed [toxTerm0] ("/new".data) ("/other".data) ("/new".data)
      ("tox".data)).2.1,
   (C5_getOrCreate_name_keyed [] ("/new".data) ("/other".data) ("/new".data)
      ("tox".data)).2.2 (by decide)⟩

/-! ### Claim C9 -/

/-- C9: running selected environments sends exactly the string `tox -e `
followed by the environment names joined with commas; in particular `py39`
alone sends `tox -e py39` and `py39, lint` send `tox -e py39,lint`. -/
theorem C9_sent_text (envs : List Str) (d : Str) (ts : List Terminal) :
    (Extension.runTox envs d ts).2.2 = "tox -e ".data ++ [','].intercalate envs ∧
    (Extension.runTox ["py39".data] d ts).2.2 = "tox -e py39".data ∧
    (Extension.runTox ["py39".data, "lint".data] d ts).2.2 = "tox -e py39,lint".data :=
  ⟨rfl, rfl, rfl⟩

/-! ### Claim C10 -/

/-- C10: every `runTox` invocation creates a brand-new terminal named `tox`
bound to the given directory, even when a terminal named `tox` already exists
(whereas `getTerminal` would have reused the existing one and left the registry
unchanged); two consecutive runs grow the registry by two; and the
`selectCommand` path appends a fresh terminal rather than reusing one. -/
theorem C10_runTox_always_creates (envs : List Str) (d stdout : Str) (ts : List Terminal)
    (hex : ∃ t ∈ ts, t.name = "tox".data) :
    (Extension.runTox envs d ts).2.1 =
      ts ++ [{ name := "tox".data, cwd := d, handleId := ts.length }] ∧
    (Extension.runTox envs d ts).1 = { name := "tox".data, cwd := d, handleId := ts.length } ∧
    (Extension.runTox envs d (Extension.runTox envs d ts).2.1).2.1.length = ts.length + 2 ∧
    (Utils.getTerminal ts d ("tox".data)).2 = ts ∧
    (∀ env : Extension.CmdEnv, ∀ sel : Str,
      Extension.findProjectDir env.host = .ok d →
      env.toxA d = .ok stdout →
      env.pickOne (Extension.getToxEnvs stdout env.eol) = some sel →
      sel ≠ [] →
      (Extension.selectCommand env ts).2 =
        ts ++ [{ name := "tox".data, cwd := d, handleId := ts.length }]) := by
  refine ⟨rfl, rfl, by simp [Extension.runTox], ?_, ?_⟩
  · obtain ⟨t, ht, hname⟩ := hex
    cases hfind : ts.find? (fun x => x.name == ("tox".data)) with
    | some t0 => simp [Utils.getTerminal, hfind]
    | none =>
      rw [List.find?_eq_none] at hfind
      exact absurd (by simp [hname]) (hfind t ht)
  · intro env sel h1 h2 h3 h4
    simp [Extension.selectCommand, h1, h2, h3, h4, Extension.runTox]

/-- C10 witness: with a `tox` terminal already open, `runTox` still appends a
fresh terminal (and `getTerminal` would have reused the old one). -/
theorem C10_runTox_always_creates_witness :
    (Extension.runTox ["py39".data] ("/ws".data) [toxTerm0]).2.1 =
      [toxTerm0, { name := "tox".data, cwd := "/ws".data, handleId := 1 }] ∧
    (Utils.getTerminal [toxTerm0] ("/ws".data) ("tox".data)).2 = [toxTerm0] ∧
    (Extension.selectCommand envRun [toxTerm0]).2 =
      [toxTerm0, { name := "tox".data, cwd := "/ws".data, handleId := 1 }] := by
  have h := C10_runTox_always_creates ["py39".data] ("/ws".data) toxOut [toxTerm0]
    ⟨toxTerm0, by decide, by decide⟩
  exact ⟨h.1, h.2.2.2.1, h.2.2.2.2 envRun ("py39".data) (by decide) rfl (by decide) (by decide)⟩

/-! ### Claim C7 -/

/-- C7 counterexample: in the multiple-pick command, a confirmed empty
selection (the quick pick returns an empty array, which is truthy in
JavaScript) does not abort silently: a terminal is created and the text
`tox -e ` is sent. -/
theorem C7_counterexample :
    (Extension.selectMultipleCommand envEmptyMulti []).1 =
      .ran { name := "tox".data, cwd := "/ws".data, handleId := 0 } ("tox -e ".data) ∧
    (Extension.selectMultipleCommand envEmptyMulti []).2 =
      [{ name := "tox".data, cwd := "/ws".data, handleId := 0 }] := by
  exact ⟨by decide, by decide⟩

/-- C7 amended: a cancelled prompt aborts either command silently (no error
message, no terminal, no text), and for the single-pick command an
empty-string selection also aborts silently; but in the multiple-pick command
an empty selected array proceeds to run (see the counterexample). -/
theorem C7_silent_cancellation (env : Extension.CmdEnv) (ts : List Terminal)
    (projDir stdout : Str)
    (hdir : Extension.findProjectDir env.host = .ok projDir)
    (htox : env.toxA projDir = .ok stdout)
    (hone : env.pickOne (Extension.getToxEnvs stdout env.eol) = none ∨
      env.pickOne (Extension.getToxEnvs stdout env.eol) = some [])
    (hmany : env.pickMany (Extension.getToxEnvs stdout env.eol) = none) :
    Extension.selectCommand env ts = (.silentReturn, ts) ∧
    Extension.selectMultipleCommand env ts = (.silentReturn, ts) := by
  constructor
  · rcases hone with h | h <;> simp [Extension.selectCommand, hdir, htox, h]
  · simp [Extension.selectMultipleCommand, hdir, htox, hmany]

/-- C7 witness: both commands abort silently when the prompts are cancelled. -/
theorem C7_silent_cancellation_witness :
    Extension.selectCommand envCancel [] = (.silentReturn, []) ∧
    Extension.selectMultipleCommand envCancel [] = (.silentReturn, []) :=
  C7_silent_cancellation envCancel [] ("/ws".data) toxOut rfl rfl (Or.inl rfl) rfl

/-! ### Claim C8 -/

/-- C8: with no focused document, both resolvers fail with the
`No active editor found.` error (`NoActiveDocument`) and never return a
fallback path, and the commands terminate with that uncaught failure (no
message shown, no terminal, no text); with a focused document the resolvers
always succeed. -/
theorem C8_no_active_document (env : Extension.CmdEnv) (ts : List Terminal) :
    (env.host.activeDocFsPath = none →
      Utils.findProjectDir env.host = .error Utils.noActiveEditorMsg ∧
      Extension.findProjectDir env.host = .error Utils.noActiveEditorMsg ∧
      Extension.selectCommand env ts = (.thrown Utils.noActiveEditorMsg, ts) ∧
      Extension.selectMultipleCommand env ts = (.thrown Utils.noActiveEditorMsg, ts)) ∧
    (∀ p, env.host.activeDocFsPath = some p →
      (∃ r, Utils.findProjectDir env.host = .ok r) ∧
      (∃ r, Extension.findProjectDir env.host = .ok r)) := by
  constructor
  · intro h
    refine ⟨?_, ?_, ?_, ?_⟩ <;>
      simp [Utils.findProjectDir, Extension.findProjectDir, Extension.selectCommand,
        Extension.selectMultipleCommand, h]
  · intro p hp
    constructor
    · cases hw : env.host.workspaceFolderOf p with
      | none =>
        refine ⟨Path.dirname p, ?_⟩
        simp [Utils.findProjectDir, hp, hw]
      | some ws =>
        simp only [Utils.findProjectDir, hp, hw]
        exact ⟨_, rfl⟩
    · cases hw : env.host.workspaceFolderOf p with
      | none =>
        refine ⟨Path.dirname p, ?_⟩
        simp [Extension.findProjectDir, hp, hw]
      | some ws =>
        refine ⟨ws, ?_⟩
        simp [Extension.findProjectDir, hp, hw]

/-- C8 witness: the concrete no-document state throws in both commands and both
resolvers, and a focused document resolves successfully. -/
theorem C8_no_active_document_witness :
    Extension.selectCommand envNoDoc [] = (.thrown Utils.noActiveEditorMsg, []) ∧
    Extension.selectMultipleCommand envNoDoc [] = (.thrown Utils.noActiveEditorMsg, []) ∧
    (∃ r, Utils.findProjectDir envRun.host = .ok r) :=
  ⟨((C8_no_active_document envNoDoc []).1 rfl).2.2.1,
   ((C8_no_active_document envNoDoc []).1 rfl).2.2.2,
   ((C8_no_active_document envRun []).2 docA rfl).1⟩

/-! ### Claim C1 -/

/-- C1: the override path kept by the resolver is the original template with
only the `fileWorkspaceFolder` substitution applied — the `workspaceFolder`
substitution is computed and then discarded (the kept value does not depend on
the workspace root at all), so a `workspaceFolder` placeholder is never
substituted and remains in the kept override path; and the resolved directory
is built from exactly that kept value. -/
theorem C1_ws_substitution_discarded (cwd wsRoot wsRoot2 docDir : Str) :
    Utils.overriddenRoot cwd wsRoot docDir =
      JsStr.replaceFirst cwd Utils.fileWsPlaceholder docDir ∧
    Utils.overriddenRoot cwd wsRoot docDir = Utils.overriddenRoot cwd wsRoot2 docDir ∧
    (JsStr.containsSub cwd Utils.fileWsPlaceholder = false →
      Utils.overriddenRoot cwd wsRoot docDir = cwd) ∧
    (JsStr.containsSub cwd Utils.wsPlaceholder = true →
      JsStr.containsSub cwd Utils.fileWsPlaceholder = false →
      JsStr.containsSub (Utils.overriddenRoot cwd wsRoot docDir) Utils.wsPlaceholder = true) ∧
    (∀ h : Host, ∀ docPath : Str, h.activeDocFsPath = some docPath →
      h.workspaceFolderOf docPath = some wsRoot → h.toxCwd = some cwd → cwd ≠ [] →
      Utils.findProjectDir h = .ok (Path.normalize
        (if Path.isAbsolute (JsStr.replaceFirst cwd Utils.fileWsPlaceholder
            (Path.dirname docPath)) = false then
          Path.join2 wsRoot (JsStr.replaceFirst cwd Utils.fileWsPlaceholder
            (Path.dirname docPath))
        else JsStr.replaceFirst cwd Utils.fileWsPlaceholder (Path.dirname docPath)))) := by
  have hkept : ∀ dd : Str, Utils.overriddenRoot cwd wsRoot dd =
      JsStr.replaceFirst cwd Utils.fileWsPlaceholder dd := fun _ => rfl
  refine ⟨rfl, rfl, ?_, ?_, ?_⟩
  · intro h
    rw [hkept, replaceFirst_of_not_contains _ _ _ h]
  · intro h1 h2
    rw [hkept, replaceFirst_of_not_contains _ _ _ h2]
    exact h1
  · intro h docPath hdoc hws hcwd hne
    simp only [Utils.findProjectDir, hdoc, hws, hcwd, hne, if_neg hne, hkept]
    simp

/-- C1 witness: for the template `${workspaceFolder}/sub` (which contains the
`workspaceFolder` placeholder and not the `fileWorkspaceFolder` one) the kept
override path is the template itself, the placeholder still occurs in it, and
the resolver output keeps the placeholder as literal text. -/
theorem C1_ws_substitution_discarded_witness :
    Utils.overriddenRoot ("$\x7bworkspaceFolder\x7d/sub".data) ("/ws".data) ("/ws/proj".data) =
      ("$\x7bworkspaceFolder\x7d/sub".data) ∧
    JsStr.containsSub
      (Utils.overriddenRoot ("$\x7bworkspaceFolder\x7d/sub".data) ("/ws".data)
        ("/ws/proj".data)) Utils.wsPlaceholder = true ∧
    Utils.findProjectDir hostOverride = .ok ("/ws/$\x7bworkspaceFolder\x7d/sub".data) := by
  have h := C1_ws_substitution_discarded ("$\x7bworkspaceFolder\x7d/sub".data) ("/ws".data)
    ("/x".data) ("/ws/proj".data)
  refine ⟨h.2.2.1 (by decide), h.2.2.2.1 (by decide) (by decide), ?_⟩
  rw [h.2.2.2.2 hostOverride docA rfl rfl rfl (by decide)]
  decide

/-! ### Claim C2 -/

/-- C2 counterexample: for a workspace document in `/ws` with override template
`${workspaceFolder}/sub`, the resolver does not return `/ws/sub`: the
placeholder survives as literal text and the relative-looking template is
joined onto the workspace root, giving `/ws/${workspaceFolder}/sub`. -/
theorem C2_counterexample :
    Utils.findProjectDir hostOverride = .ok ("/ws/$\x7bworkspaceFolder\x7d/sub".data) ∧
    Utils.findProjectDir hostOverride ≠ .ok ("/ws/sub".data) := by
  exact ⟨by decide, by decide⟩

/-- C2 amended: with override template exactly `${workspaceFolder}/sub`, the
resolver returns the normalized join of the workspace root and the literal
template text — the `workspaceFolder` placeholder is not substituted, and the
template (starting with `$`) counts as relative, so the result is
`<workspaceRoot>/$\x7bworkspaceFolder\x7d/sub` rather than
`<workspaceRoot>/sub`. -/
theorem C2_amended_placeholder_kept (h : Host) (docPath wsRoot : Str)
    (hdoc : h.activeDocFsPath = some docPath)
    (hws : h.workspaceFolderOf docPath = some wsRoot)
    (hcwd : h.toxCwd = some ("$\x7bworkspaceFolder\x7d/sub".data)) :
    Utils.findProjectDir h =
      .ok (Path.normalize (Path.join2 wsRoot ("$\x7bworkspaceFolder\x7d/sub".data))) := by
  have hkept : JsStr.replaceFirst ("$\x7bworkspaceFolder\x7d/sub".data)
      Utils.fileWsPlaceholder (Path.dirname docPath) =
      ("$\x7bworkspaceFolder\x7d/sub".data) :=
    replaceFirst_of_not_contains _ _ _ (by decide)
  simp only [Utils.findProjectDir, hdoc, hws, hcwd, Utils.overriddenRoot, hkept]
  rw [if_neg (by decide), if_pos (by decide)]

/-- C2 witness: the amended statement at the concrete state. -/
theorem C2_amended_placeholder_kept_witness :
    Utils.findProjectDir hostOverride =
      .ok (Path.normalize (Path.join2 ("/ws".data) ("$\x7bworkspaceFolder\x7d/sub".data))) :=
  C2_amended_placeholder_kept hostOverride docA ("/ws".data) rfl rfl rfl

/-! ### Claim C6 -/

theorem goSplit_singleton_eq_go (c : Char) (s acc : Str) :
    JsStr.goSplit [c] s 0 acc = List.splitOnP.go (fun x => x == c) s acc := by
  induction s generalizing acc with
  | nil => rfl
  | cons a t ih =>
    simp only [JsStr.goSplit, List.splitOnP.go, List.isPrefixOf, List.length_cons,
      List.length_nil]
    by_cases h : a = c
    · subst h
      simp [ih]
    · simp [ih, h, Ne.symm h]

/-- JavaScript `split` with a one-character separator agrees with `List.splitOn`. -/
theorem splitOnJs_singleton (c : Char) (s : Str) :
    JsStr.splitOnJs [c] s = s.splitOn c := by
  simp only [JsStr.splitOnJs]
  rw [if_neg (by simp)]
  exact goSplit_singleton_eq_go c s []

/-- C6 counterexample: the claim says each element of the environment list is
trimmed, but the code trims only the whole stdout; for stdout `" a \nb"` the
code keeps the inner trailing space (`["a ", "b"]`) while the claimed
computation yields `["a", "b"]`. -/
theorem C6_counterexample :
    Extension.getToxEnvs (" a \nb".data) ("\n".data) = ["a ".data, "b".data] ∧
    Extension.specEnvList (" a \nb".data) ("\n".data) = ["a".data, "b".data] ∧
    Extension.getToxEnvs (" a \nb".data) ("\n".data) ≠
      Extension.specEnvList (" a \nb".data) ("\n".data) :=
  ⟨by decide, by decide, by decide⟩

/-- C6 amended: the environment list is obtained by trimming the whole stdout
(at both ends, not each element) and splitting on the platform line separator,
one environment per line with the original order preserved; in particular for
output `py39\npy310\nlint` and separator `\n` the list is
`[py39, py310, lint]`. -/
theorem C6_envs_one_per_line (c : Char) (lines : List Str)
    (h1 : lines ≠ []) (h2 : ∀ l ∈ lines, c ∉ l)
    (h3 : JsStr.trimJs ([c].intercalate lines) = [c].intercalate lines) :
    Extension.getToxEnvs ([c].intercalate lines) [c] = lines ∧
    Extension.getToxEnvs ("py39\npy310\nlint".data) ("\n".data) =
      ["py39".data, "py310".data, "lint".data] := by
  constructor
  · simp only [Extension.getToxEnvs, h3, splitOnJs_singleton]
    exact List.splitOn_intercalate lines c h2 h1
  · decide

/-- C6 witness: the amended statement at the concrete three-line output. -/
theorem C6_envs_one_per_line_witness :
    Extension.getToxEnvs (['\n'].intercalate ["py39".data, "py310".data, "lint".data])
      ['\n'] = ["py39".data, "py310".data, "lint".data] :=
  (C6_envs_one_per_line '\n' ["py39".data, "py310".data, "lint".data]
    (by decide) (by decide) (by decide)).1

/-! ### Path lemmas for claims C3 and C4 -/

namespace Path

theorem dropWhile_append_all {p : Char → Bool} (a b : Str) (h : ∀ x ∈ a, p x = true) :
    (a ++ b).dropWhile p = b.dropWhile p := by
  induction a with
  | nil => rfl
  | cons x t ih =>
    have hx := h x (List.mem_cons_self x t)
    simp only [List.cons_append, List.dropWhile_cons, hx, if_true]
    exact ih fun y hy => h y (List.mem_cons_of_mem x hy)

theorem dropWhile_cons_neg {p : Char → Bool} (x : Char) (l : Str) (h : p x = false) :
    (x :: l).dropWhile p = x :: l := by
  simp [List.dropWhile_cons, h]

theorem dropWhile_eq_nil_all {p : Char → Bool} (l : Str) (h : ∀ x ∈ l, p x = true) :
    l.dropWhile p = [] :=
  List.dropWhile_eq_nil_iff.mpr h

theorem mem_of_getLast?_eq (x : Char) (l : Str) (h : l.getLast? = some x) : x ∈ l := by
  cases l with
  | nil => simp at h
  | cons a t =>
    rw [List.getLast?_eq_getLast (a :: t) (by simp)] at h
    exact (Option.some.inj h) ▸ List.getLast_mem _

theorem intercalate_cons (x : Char) (a : Str) (l : List Str) (h : l ≠ []) :
    [x].intercalate (a :: l) = a ++ x :: [x].intercalate l := by
  cases l with
  | nil => exact absurd rfl h
  | cons b t => simp [List.intercalate, List.intersperse_cons_cons]

theorem intercalate_singleton (x : Char) (a : Str) : [x].intercalate [a] = a := by
  simp [List.intercalate]

theorem intercalate_append_single (x : Char) (L : List Str) (b : Str) (h : L ≠ []) :
    [x].intercalate (L ++ [b]) = [x].intercalate L ++ x :: b := by
  induction L with
  | nil => exact absurd rfl h
  | cons a t ih =>
    cases t with
    | nil => simp [intercalate_cons x a [b] (by simp), intercalate_singleton]
    | cons c u =>
      rw [List.cons_append, intercalate_cons x a ((c :: u) ++ [b]) (by simp),
        intercalate_cons x a (c :: u) (by simp), ih (by simp)]
      simp

theorem intercalate_cons_decomp (x : Char) (a : Str) (l : List Str) :
    ∃ r, [x].intercalate (a :: l) = a ++ r := by
  cases l with
  | nil => exact ⟨[], by simp [intercalate_singleton]⟩
  | cons b t => exact ⟨x :: [x].intercalate (b :: t), intercalate_cons x a (b :: t) (by simp)⟩

theorem intercalate_good_ne_nil (L : List Str) (hL : ∀ s ∈ L, GoodSeg s) (hne : L ≠ []) :
    [sep].intercalate L ≠ [] := by
  cases L with
  | nil => exact absurd rfl hne
  | cons a l =>
    obtain ⟨r, hr⟩ := intercalate_cons_decomp sep a l
    rw [hr]
    have ha : a ≠ [] := (hL a (List.mem_cons_self a l)).1
    cases a with
    | nil => exact absurd rfl ha
    | cons c t => simp

theorem isAbsolute_intercalate_good (L : List Str) (hL : ∀ s ∈ L, GoodSeg s) :
    isAbsolute ([sep].intercalate L) = false := by
  cases L with
  | nil => rfl
  | cons a l =>
    obtain ⟨r, hr⟩ := intercalate_cons_decomp sep a l
    rw [hr]
    obtain ⟨ha, _, _, hsep⟩ := hL a (List.mem_cons_self a l)
    cases a with
    | nil => exact absurd rfl ha
    | cons c t =>
      have hc : c ≠ sep := fun hc => hsep (hc ▸ List.mem_cons_self c t)
      simp [isAbsolute, hc]

theorem getLast?_intercalate_good (L : List Str) (hL : ∀ s ∈ L, GoodSeg s) (hne : L ≠ []) :
    ∃ x, ([sep].intercalate L).getLast? = some x ∧ x ≠ sep := by
  rcases List.eq_nil_or_concat L with rfl | ⟨L0, b, rfl⟩
  · exact absurd rfl hne
  · rw [List.concat_eq_append]
    have hb : GoodSeg b := hL b (by simp)
    have hbne : b ≠ [] := hb.1
    obtain ⟨x, hx⟩ : ∃ x, b.getLast? = some x := by
      cases hg : b.getLast? with
      | none => exact absurd (List.getLast?_eq_none_iff.mp hg) hbne
      | some y => exact ⟨y, rfl⟩
    have hxb : x ∈ b := mem_of_getLast?_eq x b hx
    have hxs : x ≠ sep := fun hcontra => hb.2.2.2 (hcontra ▸ hxb)
    rcases L0.eq_nil_or_concat with rfl | ⟨M, m, rfl⟩
    · exact ⟨x, by simpa [intercalate_singleton] using hx, hxs⟩
    · rw [intercalate_append_single sep _ b (by simp)]
      refine ⟨x, ?_, hxs⟩
      rw [List.getLast?_append]
      cases b with
      | nil => exact absurd rfl hbne
      | cons y ys => simp [hx]

theorem step_nil_seg (u : Bool) (st : List Str) : step u st [] = st := by
  simp [step]

theorem step_push (u : Bool) (st : List Str) (seg : Str)
    (h1 : seg ≠ []) (h2 : seg ≠ ['.']) (h3 : seg ≠ up) :
    step u st seg = seg :: st := by
  simp [step, h1, h2, h3]

theorem foldl_push (u : Bool) (core : List Str) (st : List Str)
    (h : ∀ s ∈ core, s ≠ [] ∧ s ≠ ['.'] ∧ s ≠ up) :
    core.foldl (step u) st = core.reverse ++ st := by
  induction core generalizing st with
  | nil => rfl
  | cons a t ih =>
    obtain ⟨h1, h2, h3⟩ := h a (List.mem_cons_self a t)
    rw [List.foldl_cons, step_push u st a h1 h2 h3,
      ih (a :: st) fun s hs => h s (List.mem_cons_of_mem a hs)]
    simp

theorem cleanSegs_good (u : Bool) (L : List Str)
    (h : ∀ s ∈ L, s ≠ [] ∧ s ≠ ['.'] ∧ s ≠ up) :
    cleanSegs u ([] :: L) = L ∧ cleanSegs u ([] :: (L ++ [[]])) = L := by
  constructor
  · rw [cleanSegs, List.foldl_cons, step_nil_seg, foldl_push u L [] h]
    simp
  · rw [cleanSegs, List.foldl_cons, step_nil_seg, List.foldl_append, foldl_push u L [] h,
      List.foldl_cons, step_nil_seg, List.foldl_nil]
    simp

theorem step_inv_false (st : List Str) (a : Str)
    (hst : ∀ s ∈ st, GoodSeg s) (ha : sep ∉ a) :
    ∀ s ∈ step false st a, GoodSeg s := by
  by_cases h1 : a = [] ∨ a = ['.']
  · rw [step.eq_def, if_pos h1]
    exact hst
  · by_cases h2 : a = up
    · rw [step.eq_def, if_neg h1, if_pos h2]
      cases st with
      | nil => simp
      | cons top rest =>
        show ∀ s ∈ (if top = up then (if false = true then a :: top :: rest else top :: rest)
          else rest), GoodSeg s
        by_cases h3 : top = up
        · rw [if_pos h3]
          simp only [Bool.false_eq_true, if_false]
          exact hst
        · rw [if_neg h3]
          exact fun s hs => hst s (List.mem_cons_of_mem top hs)
    · push_neg at h1
      rw [step.eq_def, if_neg (by push_neg; exact h1), if_neg h2]
      intro s hs
      rcases List.mem_cons.mp hs with rfl | hs
      · exact ⟨h1.1, h1.2, h2, ha⟩
      · exact hst s hs

theorem foldl_inv_false (segs : List Str) (st : List Str)
    (hs : ∀ s ∈ segs, sep ∉ s) (hst : ∀ s ∈ st, GoodSeg s) :
    ∀ s ∈ segs.foldl (step false) st, GoodSeg s := by
  induction segs generalizing st with
  | nil => exact hst
  | cons a t ih =>
    rw [List.foldl_cons]
    exact ih (step false st a)
      (fun s hmem => hs s (List.mem_cons_of_mem a hmem))
      (step_inv_false st a hst (hs a (List.mem_cons_self a t)))

theorem cleanSegs_false_good (segs : List Str) (hs : ∀ s ∈ segs, sep ∉ s) :
    ∀ s ∈ cleanSegs false segs, GoodSeg s := by
  intro s hmem
  rw [cleanSegs, List.mem_reverse] at hmem
  exact foldl_inv_false segs [] hs (by simp) s hmem

theorem splitOn_sep_not_mem (xs : Str) (x : Char) : ∀ l ∈ xs.splitOn x, x ∉ l := by
  induction xs with
  | nil => simp [List.splitOn]
  | cons a t ih =>
    intro l hl
    rw [List.splitOn, List.splitOnP_cons] at hl
    by_cases h : a = x
    · rw [if_pos (by simp [h])] at hl
      rcases List.mem_cons.mp hl with rfl | hl
      · simp
      · exact ih l hl
    · rw [if_neg (by simp [h])] at hl
      cases hsp : List.splitOnP (fun b => b == x) t with
      | nil => exact absurd hsp (List.splitOnP_ne_nil _ t)
      | cons h0 t0 =>
        rw [hsp, List.modifyHead_cons] at hl
        rcases List.mem_cons.mp hl with rfl | hl
        · intro hmem
          rcases List.mem_cons.mp hmem with rfl | hmem
          · exact h rfl
          · exact ih h0 (by rw [List.splitOn, hsp]; exact List.mem_cons_self h0 t0) hmem
        · exact ih l (by rw [List.splitOn, hsp]; exact List.mem_cons_of_mem h0 hl)

theorem splitOn_abs_repr (L : List Str) (hL : ∀ s ∈ L, GoodSeg s) (hne : L ≠ []) :
    (sep :: [sep].intercalate L).splitOn sep = [] :: L ∧
    (sep :: ([sep].intercalate L ++ [sep])).splitOn sep = [] :: (L ++ [[]]) := by
  have hfree : ∀ l ∈ [] :: L, sep ∉ l := by
    intro l hl
    rcases List.mem_cons.mp hl with rfl | hl
    · simp
    · exact (hL l hl).2.2.2
  constructor
  · have hrepr : sep :: [sep].intercalate L = [sep].intercalate ([] :: L) := by
      rw [intercalate_cons sep [] L hne]
      simp
    rw [hrepr, List.splitOn_intercalate ([] :: L) sep hfree (by simp)]
  · have hfree2 : ∀ l ∈ [] :: (L ++ [[]]), sep ∉ l := by
      intro l hl
      rcases List.mem_cons.mp hl with rfl | hl
      · simp
      · rcases List.mem_append.mp hl with hl | hl
        · exact (hL l hl).2.2.2
        · simp only [List.mem_singleton] at hl
          simp [hl]
    have hrepr : sep :: ([sep].intercalate L ++ [sep]) =
        [sep].intercalate ([] :: (L ++ [[]])) := by
      rw [intercalate_cons sep [] (L ++ [[]]) (by simp),
        intercalate_append_single sep L [] hne]
      simp
    rw [hrepr, List.splitOn_intercalate ([] :: (L ++ [[]])) sep hfree2 (by simp)]

theorem normalizeString_abs (L : List Str) (hL : ∀ s ∈ L, GoodSeg s) (hne : L ≠ []) :
    normalizeString false (sep :: [sep].intercalate L) = [sep].intercalate L ∧
    normalizeString false (sep :: ([sep].intercalate L ++ [sep])) = [sep].intercalate L := by
  have hgood : ∀ s ∈ L, s ≠ [] ∧ s ≠ ['.'] ∧ s ≠ up := fun s hs =>
    ⟨(hL s hs).1, (hL s hs).2.1, (hL s hs).2.2.1⟩
  obtain ⟨h1, h2⟩ := splitOn_abs_repr L hL hne
  constructor
  · rw [normalizeString, h1, (cleanSegs_good false L hgood).1]
  · rw [normalizeString, h2, (cleanSegs_good false L hgood).2]

theorem normalize_abs_eval (X : Str) :
    normalize (sep :: X) =
      sep :: (if normalizeString false (sep :: X) ≠ [] ∧ (sep :: X).getLast? = some sep
        then normalizeString false (sep :: X) ++ [sep]
        else normalizeString false (sep :: X)) := by
  have habs : isAbsolute (sep :: X) = true := by simp [isAbsolute]
  simp only [normalize, habs, Bool.not_true, List.cons_ne_nil, if_false, Bool.true_eq_false,
    and_false, if_neg (fun h => List.cons_ne_nil sep X h)]
  by_cases hcond : normalizeString false (sep :: X) ≠ [] ∧ (sep :: X).getLast? = some sep
  · rw [if_pos hcond]
    simp
  · rw [if_neg hcond]
    simp

theorem normalize_abs_fixed (L : List Str) (tb : Bool)
    (hL : ∀ s ∈ L, GoodSeg s) (hne : L ≠ []) :
    normalize (sep :: ([sep].intercalate L ++ (if tb then [sep] else []))) =
      sep :: ([sep].intercalate L ++ (if tb then [sep] else [])) := by
  obtain ⟨hn1, hn2⟩ := normalizeString_abs L hL hne
  have hbody := intercalate_good_ne_nil L hL hne
  obtain ⟨x, hx, hxs⟩ := getLast?_intercalate_good L hL hne
  cases tb with
  | false =>
    simp only [Bool.false_eq_true, if_false, List.append_nil]
    rw [normalize_abs_eval, hn1]
    have htr : ¬((sep :: [sep].intercalate L).getLast? = some sep) := by
      intro hcontra
      rw [show sep :: [sep].intercalate L = [sep] ++ [sep].intercalate L from rfl,
        List.getLast?_append, hx] at hcontra
      exact hxs (Option.some.inj hcontra.symm).symm
    rw [if_neg fun hand => htr hand.2]
  | true =>
    simp only [if_true]
    rw [normalize_abs_eval, hn2]
    have htr : (sep :: ([sep].intercalate L ++ [sep])).getLast? = some sep := by
      rw [show sep :: ([sep].intercalate L ++ [sep]) =
        (sep :: [sep].intercalate L) ++ [sep] from by simp, List.getLast?_concat]
    rw [if_pos ⟨hbody, htr⟩]

theorem normalize_abs_shape (p : Str) (hp : isAbsolute p = true) :
    normalize p = [sep] ∨
      ∃ (L : List Str) (tb : Bool), L ≠ [] ∧ (∀ s ∈ L, GoodSeg s) ∧
        normalize p = sep :: ([sep].intercalate L ++ (if tb then [sep] else [])) := by
  obtain ⟨X, rfl⟩ : ∃ X, p = sep :: X := by
    cases p with
    | nil => simp [isAbsolute] at hp
    | cons c t =>
      have : c = sep := by simpa [isAbsolute] using hp
      exact ⟨t, by rw [this]⟩
  rw [normalize_abs_eval X]
  have hgood := cleanSegs_false_good ((sep :: X).splitOn sep) (splitOn_sep_not_mem _ sep)
  cases hL : cleanSegs false ((sep :: X).splitOn sep) with
  | nil =>
    left
    have hz : normalizeString false (sep :: X) = [] := by
      rw [normalizeString, hL]
      rfl
    rw [hz]
    simp
  | cons a l =>
    right
    have hgood2 : ∀ s ∈ a :: l, GoodSeg s := by
      rw [← hL]
      exact hgood
    have hn : normalizeString false (sep :: X) = [sep].intercalate (a :: l) := by
      rw [normalizeString, hL]
    have hbody := intercalate_good_ne_nil (a :: l) hgood2 (by simp)
    by_cases htr : (sep :: X).getLast? = some sep
    · refine ⟨a :: l, true, by simp, hgood2, ?_⟩
      rw [hn, if_pos ⟨hbody, htr⟩]
      simp
    · refine ⟨a :: l, false, by simp, hgood2, ?_⟩
      rw [hn, if_neg fun hand => htr hand.2]
      simp

theorem normalize_idem_abs (p : Str) (hp : isAbsolute p = true) :
    Normalized (normalize p) := by
  rcases normalize_abs_shape p hp with h | ⟨L, tb, hne, hL, h⟩
  · rw [Normalized, h]
    decide
  · rw [Normalized, h]
    exact normalize_abs_fixed L tb hL hne

theorem isAbsolute_normalize (p : Str) (hp : isAbsolute p = true) :
    isAbsolute (normalize p) = true := by
  rcases normalize_abs_shape p hp with h | ⟨L, tb, _, _, h⟩ <;> rw [h] <;> simp [isAbsolute]

theorem isAbsolute_join2 (a b : Str) (ha : isAbsolute a = true) :
    isAbsolute (join2 a b) = true := by
  cases a with
  | nil => simp [isAbsolute] at ha
  | cons c t =>
    have hc : c = sep := by simpa [isAbsolute] using ha
    subst hc
    simp only [join2, List.cons_ne_nil, if_false, if_neg (fun h => List.cons_ne_nil sep t h)]
    by_cases hb : b = []
    · rw [if_pos hb, if_neg (fun h => List.cons_ne_nil sep t h)]
      exact isAbsolute_normalize (sep :: t) ha
    · rw [if_neg hb, if_neg (by simp)]
      exact isAbsolute_normalize (sep :: (t ++ sep :: b)) (by simp [isAbsolute])

theorem isAbsolute_dirname (p : Str) (hp : isAbsolute p = true) :
    isAbsolute (dirname p) = true := by
  cases p with
  | nil => simp [isAbsolute] at hp
  | cons c t =>
    have hc : c = sep := by simpa [isAbsolute] using hp
    subst hc
    simp only [dirname]
    by_cases h2 : ((t.reverse.dropWhile (fun x => x == sep)).dropWhile (fun x => x != sep)) = []
    · rw [if_pos h2]
      simp [isAbsolute]
    · rw [if_neg h2]
      by_cases h3 :
          ((t.reverse.dropWhile (fun x => x == sep)).dropWhile (fun x => x != sep)).length = 1
      · rw [if_pos (by simp [h3])]
        simp [isAbsolute]
      · rw [if_neg (by simp [h3])]
        cases hr : ((t.reverse.dropWhile (fun x => x == sep)).dropWhile (fun x => x != sep)) with
        | nil => exact absurd hr h2
        | cons y ys =>
          simp only [List.length_cons, List.take_succ_cons]
          simp [isAbsolute]

theorem dirname_abs_assembled (L : List Str) (tl : Str)
    (hL : ∀ s ∈ L, GoodSeg s) (hne : L ≠ [])
    (htl : ∀ x ∈ tl, x = sep) :
    Normalized (dirname (sep :: ([sep].intercalate L ++ tl))) := by
  have htlrev : ∀ x ∈ tl.reverse, (x == sep) = true := by
    intro x hx
    simp [htl x (List.mem_reverse.mp hx)]
  rcases List.eq_nil_or_concat L with rfl | ⟨L0, b, rfl⟩
  · exact absurd rfl hne
  rw [List.concat_eq_append] at hL ⊢
  have hb : GoodSeg b := hL b (by simp)
  have hbne : b ≠ [] := hb.1
  have hbsep : sep ∉ b := hb.2.2.2
  obtain ⟨y, ys, hyrev⟩ : ∃ y ys, b.reverse = y :: ys := by
    cases hbr : b.reverse with
    | nil =>
      rw [List.reverse_eq_nil_iff] at hbr
      exact absurd hbr hbne
    | cons y ys => exact ⟨y, ys, rfl⟩
  have hyne : y ≠ sep :=
    fun hc => hbsep (hc ▸ List.mem_reverse.mp (hyrev ▸ List.mem_cons_self y ys))
  have hy : (y == sep) = false := beq_eq_false_iff_ne.mpr hyne
  have hbrev_all : ∀ x ∈ b.reverse, (x != sep) = true := by
    intro x hx
    exact bne_iff_ne.mpr fun hc => hbsep (hc ▸ List.mem_reverse.mp hx)
  rcases List.eq_nil_or_concat L0 with rfl | ⟨M, m, rfl⟩
  · rw [List.nil_append, intercalate_singleton]
    have hr1 : (b ++ tl).reverse.dropWhile (fun x => x == sep) = b.reverse := by
      rw [List.reverse_append, dropWhile_append_all tl.reverse b.reverse htlrev, hyrev,
        dropWhile_cons_neg y ys hy]
    have hr2 : ((b ++ tl).reverse.dropWhile (fun x => x == sep)).dropWhile
        (fun x => x != sep) = [] := by
      rw [hr1]
      exact dropWhile_eq_nil_all b.reverse hbrev_all
    have hd : dirname (sep :: (b ++ tl)) = [sep] := by
      simp only [dirname, hr2]
      simp
    rw [hd]
    show normalize [sep] = [sep]
    decide
  · rw [List.concat_eq_append] at hL ⊢
    have hL0ne : (M ++ [m] : List Str) ≠ [] := by simp
    have hgood0 : ∀ s ∈ M ++ [m], GoodSeg s :=
      fun s hs => hL s (List.mem_append_left [b] hs)
    have hAne : [sep].intercalate (M ++ [m]) ≠ [] :=
      intercalate_good_ne_nil _ hgood0 hL0ne
    have hbody : [sep].intercalate ((M ++ [m]) ++ [b]) =
        [sep].intercalate (M ++ [m]) ++ sep :: b :=
      intercalate_append_single sep (M ++ [m]) b hL0ne
    rw [hbody]
    set A := [sep].intercalate (M ++ [m]) with hAdef
    have ht : ((A ++ sep :: b) ++ tl).reverse =
        tl.reverse ++ (b.reverse ++ sep :: A.reverse) := by
      simp [List.reverse_append, List.reverse_cons, List.append_assoc]
    have hr1 : ((A ++ sep :: b) ++ tl).reverse.dropWhile (fun x => x == sep) =
        b.reverse ++ sep :: A.reverse := by
      rw [ht, dropWhile_append_all tl.reverse _ htlrev, hyrev, List.cons_append,
        dropWhile_cons_neg y (ys ++ sep :: A.reverse) hy, ← List.cons_append, ← hyrev]
    have hr2 : (((A ++ sep :: b) ++ tl).reverse.dropWhile (fun x => x == sep)).dropWhile
        (fun x => x != sep) = sep :: A.reverse := by
      rw [hr1, dropWhile_append_all b.reverse _ hbrev_all,
        dropWhile_cons_neg sep A.reverse (by simp)]
    have hlen1 : ¬((sep :: A.reverse).length = 1) := by
      simp only [List.length_cons, List.length_reverse]
      intro hcontra
      have hzero : A.length = 0 := by omega
      exact hAne (List.length_eq_zero.mp hzero)
    have htake : dirname (sep :: ((A ++ sep :: b) ++ tl)) = sep :: A := by
      simp only [dirname, hr2]
      rw [if_neg (by simp), if_neg (by simp [hAne])]
      simp only [List.length_cons, List.length_reverse, List.take_succ_cons]
      congr 1
      rw [List.append_assoc]
      exact List.take_left A (sep :: b ++ tl)
    rw [htake]
    have hfix := normalize_abs_fixed (M ++ [m]) false hgood0 hL0ne
    rw [Normalized]
    simpa using hfix

theorem dirname_normalized (p : Str) (hp : isAbsolute p = true) (hn : Normalized p) :
    Normalized (dirname p) := by
  have hshape := normalize_abs_shape p hp
  rw [hn] at hshape
  rcases hshape with h | ⟨L, tb, hne, hL, h⟩
  · rw [h]
    show normalize (dirname [sep]) = dirname [sep]
    decide
  · rw [h]
    exact dirname_abs_assembled L (if tb then [sep] else []) hL hne
      (by cases tb <;> simp)

end Path

/-! ### Claim C3 -/

/-- C3: for every resolution request whose host-provided paths are well formed
(the active document path absolute and normalized, workspace roots absolute),
the resolver either fails explicitly (exactly when no document is active) or
returns a path that is absolute and normalized, in every branch — including the
branch for a document outside any workspace folder. -/
theorem C3_result_absolute_normalized (h : Host)
    (hdoc : ∀ p, h.activeDocFsPath = some p →
      Path.isAbsolute p = true ∧ Path.Normalized p)
    (hws : ∀ p r, h.workspaceFolderOf p = some r → Path.isAbsolute r = true) :
    (h.activeDocFsPath = none ∧
      Utils.findProjectDir h = .error Utils.noActiveEditorMsg) ∨
    (∃ r, Utils.findProjectDir h = .ok r ∧
      Path.isAbsolute r = true ∧ Path.Normalized r) := by
  cases hd : h.activeDocFsPath with
  | none =>
    left
    exact ⟨rfl, by simp [Utils.findProjectDir, hd]⟩
  | some p =>
    right
    obtain ⟨hpabs, hpnorm⟩ := hdoc p hd
    cases hw : h.workspaceFolderOf p with
    | none =>
      exact ⟨Path.dirname p, by simp [Utils.findProjectDir, hd, hw],
        Path.isAbsolute_dirname p hpabs, Path.dirname_normalized p hpabs hpnorm⟩
    | some ws =>
      have hwabs := hws p ws hw
      cases hc : h.toxCwd with
      | none =>
        exact ⟨Path.normalize ws, by simp [Utils.findProjectDir, hd, hw, hc],
          Path.isAbsolute_normalize ws hwabs, Path.normalize_idem_abs ws hwabs⟩
      | some cwd =>
        by_cases hce : cwd = []
        · exact ⟨Path.normalize ws, by simp [Utils.findProjectDir, hd, hw, hc, hce],
            Path.isAbsolute_normalize ws hwabs, Path.normalize_idem_abs ws hwabs⟩
        · by_cases hia : Path.isAbsolute (Utils.overriddenRoot cwd ws (Path.dirname p)) = false
          · exact ⟨Path.normalize (Path.join2 ws (Utils.overriddenRoot cwd ws (Path.dirname p))),
              by simp [Utils.findProjectDir, hd, hw, hc, hce, hia],
              Path.isAbsolute_normalize _ (Path.isAbsolute_join2 ws _ hwabs),
              Path.normalize_idem_abs _ (Path.isAbsolute_join2 ws _ hwabs)⟩
          · have hia2 : Path.isAbsolute (Utils.overriddenRoot cwd ws (Path.dirname p)) = true := by
              revert hia
              cases Path.isAbsolute (Utils.overriddenRoot cwd ws (Path.dirname p)) <;> simp
            exact ⟨Path.normalize (Utils.overriddenRoot cwd ws (Path.dirname p)),
              by simp [Utils.findProjectDir, hd, hw, hc, hce, hia2],
              Path.isAbsolute_normalize _ hia2, Path.normalize_idem_abs _ hia2⟩

/-- C3 witness: the out-of-workspace branch at a concrete state returns an
absolute normalized path. -/
theorem C3_result_absolute_normalized_witness :
    (hostNoWs.activeDocFsPath = none ∧
      Utils.findProjectDir hostNoWs = .error Utils.noActiveEditorMsg) ∨
    (∃ r, Utils.findProjectDir hostNoWs = .ok r ∧
      Path.isAbsolute r = true ∧ Path.Normalized r) :=
  C3_result_absolute_normalized hostNoWs
    (fun p hp => by
      cases Option.some.inj hp
      exact ⟨by decide,
        show Path.normalize ("/tmp/note.py".data) = ("/tmp/note.py".data) from by decide⟩)
    (fun p r hr => Option.noConfusion hr)

/-! ### Claim C4 -/

/-- C4: with no configuration override present (setting absent or the falsy
empty string), the resolver returns exactly the workspace folder root
(normalized) when the document belongs to a workspace folder, and exactly the
parent directory of the document (normalized) when it does not; the
extension-local resolver agrees on both branches. -/
theorem C4_no_override (h : Host) (docPath : Str)
    (hdoc : h.activeDocFsPath = some docPath)
    (hcwd : h.toxCwd = none ∨ h.toxCwd = some [])
    (hpabs : Path.isAbsolute docPath = true) (hpnorm : Path.Normalized docPath) :
    (∀ wsRoot, h.workspaceFolderOf docPath = some wsRoot → Path.Normalized wsRoot →
      Utils.findProjectDir h = .ok wsRoot ∧ Extension.findProjectDir h = .ok wsRoot) ∧
    (h.workspaceFolderOf docPath = none →
      Utils.findProjectDir h = .ok (Path.dirname docPath) ∧
      Extension.findProjectDir h = .ok (Path.dirname docPath) ∧
      Path.Normalized (Path.dirname docPath)) := by
  constructor
  · intro ws hw hnorm
    constructor
    · rcases hcwd with hc | hc <;>
        simp [Utils.findProjectDir, hdoc, hw, hc, show Path.normalize ws = ws from hnorm]
    · simp [Extension.findProjectDir, hdoc, hw]
  · intro hw
    exact ⟨by simp [Utils.findProjectDir, hdoc, hw],
      by simp [Extension.findProjectDir, hdoc, hw],
      Path.dirname_normalized docPath hpabs hpnorm⟩

/-- C4 witness: both branches at concrete states. -/
theorem C4_no_override_witness :
    Utils.findProjectDir hostWs = .ok ("/ws".data) ∧
    Extension.findProjectDir hostWs = .ok ("/ws".data) ∧
    Utils.findProjectDir hostNoWs = .ok (Path.dirname ("/tmp/note.py".data)) ∧
    Path.Normalized (Path.dirname ("/tmp/note.py".data)) := by
  have h1 := (C4_no_override hostWs docA rfl (Or.inl rfl) (by decide)
    (show Path.normalize docA = docA from by decide)).1 ("/ws".data) rfl
    (show Path.normalize ("/ws".data) = ("/ws".data) from by decide)
  have h2 := (C4_no_override hostNoWs ("/tmp/note.py".data) rfl (Or.inl rfl) (by decide)
    (show Path.normalize ("/tmp/note.py".data) = ("/tmp/note.py".data) from by decide)).2 rfl
  exact ⟨h1.1, h1.2, h2.1, h2.2.2⟩
